import Mathlib

/-!
Shallow embedding of the balancer manager core of `src/src/lb/manager.rs`
(linkerd-tcp). Machine floats carry only the values `f32::MAX` and finite
loads here (no NaN arises), so `f32` is modelled as rationals extended with
an infinity point. `OrderMap` is modelled as an insertion-ordered
association list; `VecDeque` as a `List` (`pop_front` = head, `push_back` =
append, `push_front` = cons). Futures (`Connecting`, the connector's dials,
the dispatch intake channel) are modelled by oracles giving the outcome of
each single poll, exactly as the code observes them.
-/

set_option autoImplicit false

namespace LbManager

/-- Socket addresses (`net::SocketAddr`) as opaque naturals. -/
abbrev Addr := Nat

/-- Logical destination names (`Path`) as opaque naturals. -/
abbrev Path := Nat

/-- The `f32` values reachable in this code: finite rationals plus `+inf`
(`f32::INFINITY`). `NaN` never arises (loads are only ever `f32::MAX`). -/
inductive F32 where
  | fin (q : ℚ)
  | inf
  deriving DecidableEq, Repr

/-- `<=` on the modelled `f32` values. -/
def F32.le : F32 → F32 → Bool
  | .fin a, .fin b => a ≤ b
  | .fin _, .inf => true
  | .inf, .fin _ => false
  | .inf, .inf => true

/-- The exact rational value of `::std::f32::MAX`, namely `2^128 - 2^104`. -/
def f32MaxQ : ℚ := ((2 : ℚ) ^ (128 : Nat)) - ((2 : ℚ) ^ (104 : Nat))

/-- `::std::f32::MAX` as a modelled `f32`: the largest finite value. -/
def f32Max : F32 := .fin f32MaxQ

/-- The result of polling a future once (`Poll<T, E>`):
`Ok(Async::NotReady)`, `Ok(Async::Ready(v))`, or `Err(_)`. -/
inductive PollResult (α : Type) where
  | notReady
  | ready (value : α)
  | error
  deriving DecidableEq, Repr

/-- A connected socket; it exposes `local_addr()`. -/
structure Sock where
  localAddr : Addr
  deriving DecidableEq, Repr

/-- An in-flight dial (`Connecting` future), identified by an id; an oracle
maps the id to the outcome of polling it at the current wake. -/
structure Dial where
  id : Nat
  deriving DecidableEq, Repr

/-- A `Dispatchee`: a one-shot slot for a connection. `accepts` records
whether its `send` succeeds (the caller is still interested) at the moment
the balancer tries the hand-off. -/
structure Dispatchee where
  id : Nat
  accepts : Bool
  deriving DecidableEq, Repr

/-- `DstCtx::new(dst_name, local_addr, peer_addr, tx)`; the oneshot sender
`tx` is identified by its channel id. -/
structure DstCtx where
  dstName : Path
  localAddr : Addr
  peerAddr : Addr
  ch : Nat
  deriving DecidableEq, Repr

/-- `DstConnection` (`Connection::new(dst_name, sock, ctx)`). -/
structure DstConnection where
  dstName : Path
  sock : Sock
  ctx : DstCtx
  deriving DecidableEq, Repr

/-- The per-peer `Endpoint` record. `completing` holds the oneshot
receivers by channel id; `nextCh` supplies fresh channel ids, modelling
`oneshot::channel()`. -/
structure Endpoint where
  dstName : Path
  peerAddr : Addr
  weight : ℚ
  load : F32
  connecting : List Dial
  connected : List DstConnection
  dispatchees : List Dispatchee
  completing : List Nat
  nextCh : Nat
  deriving DecidableEq, Repr

/-- `Endpoint::new`: fresh endpoint with `load = ::std::f32::MAX` and empty
queues. -/
def Endpoint.new (dst : Path) (addr : Addr) (weight : ℚ) : Endpoint where
  dstName := dst
  peerAddr := addr
  weight := weight
  load := f32Max
  connecting := []
  connected := []
  dispatchees := []
  completing := []
  nextCh := 0

/-- `Endpoint::mk_ctx`: open a oneshot channel, push the receiver onto
`completing`, and return a `DstCtx` carrying the sender. -/
def Endpoint.mk_ctx (ep : Endpoint) (localAddr : Addr) : Endpoint × DstCtx :=
  ({ ep with completing := ep.completing ++ [ep.nextCh], nextCh := ep.nextCh + 1 },
   { dstName := ep.dstName, localAddr := localAddr, peerAddr := ep.peerAddr,
     ch := ep.nextCh })

/-- `Endpoint::is_idle`: no in-flight dials and no waiting dispatchees. -/
def Endpoint.is_idle (ep : Endpoint) : Bool :=
  ep.connecting.isEmpty && ep.dispatchees.isEmpty

/-- `Endpoint::dispatch`: pop the front connected socket and send it into
the dispatchee; on send failure push the socket back to the front; with no
connected socket, queue the dispatchee. -/
def Endpoint.dispatch (ep : Endpoint) (d : Dispatchee) : Endpoint :=
  match ep.connected with
  | [] => { ep with dispatchees := ep.dispatchees ++ [d] }
  | conn :: rest =>
    if d.accepts then
      { ep with connected := rest }
    else
      { ep with connected := conn :: rest }

/-! ### OrderMap as an insertion-ordered association list -/

/-- `OrderMap::contains_key`. -/
def omContains {β : Type} (m : List (Addr × β)) (k : Addr) : Bool :=
  m.any (fun p => p.1 == k)

/-- `OrderMap::insert`: replace in place when the key is present, else
append at the back. -/
def omInsert {β : Type} (m : List (Addr × β)) (k : Addr) (v : β) : List (Addr × β) :=
  if omContains m k then m.map (fun p => if p.1 == k then (k, v) else p)
  else m ++ [(k, v)]

/-- `OrderMap::get`. -/
def omGet {β : Type} (m : List (Addr × β)) (k : Addr) : Option β :=
  (m.find? (fun p => p.1 == k)).map (fun p => p.2)

/-- In-place mutation through `get_mut`/`get_index_mut`: update the value
stored at a key. -/
def omModify {β : Type} (m : List (Addr × β)) (k : Addr) (f : β → β) : List (Addr × β) :=
  m.map (fun p => if p.1 == k then (p.1, f p.2) else p)

/-- The key set of a map, in insertion order. -/
def keysOf {β : Type} (m : List (Addr × β)) : List Addr :=
  m.map Prod.fst

/-! ### Manager -/

/-- The `Manager` state: the `available` and `retired` endpoint tables.
The reactor handle, the connector and the dispatch intake channel are
external collaborators, modelled as arguments of the operations that poll
them. -/
structure Manager where
  dst_name : Path
  minimum_connections : Nat
  available : List (Addr × Endpoint)
  retired : List (Addr × Endpoint)

/-- `manager::new`: empty endpoint tables. -/
def Manager.new (dst : Path) (minConns : Nat) : Manager where
  dst_name := dst
  minimum_connections := minConns
  available := []
  retired := []

/-- `Manager::select_endpoint`, with the two random draws `i0, i1`
supplied by an oracle (the RNG guarantees `i0 ≠ i1`, both `< len`, when
`len ≥ 3`; for `len = 2` the code uses indices `(0, 1)`). Returns the
address of the chosen endpoint (the code returns `get_mut` of it);
`none` both for the empty table and for the never-taken `unwrap` of
`get_index`. -/
def Manager.select_endpoint (m : Manager) (i0 i1 : Nat) : Option Addr :=
  if m.available.length = 0 then none
  else if m.available.length = 1 then (m.available.get? 0).map (fun p => p.1)
  else
    let sz := m.available.length
    let j0 := if sz = 2 then 0 else i0
    let j1 := if sz = 2 then 1 else i1
    match m.available.get? j0, m.available.get? j1 with
    | some p0, some p1 =>
      some (if F32.le p0.2.load p1.2.load then p0.1 else p1.1)
    | _, _ => none

/-- The drain loop of `Manager::dispatch`: consume the queued dispatchees
in order; each iteration draws a pair of random indices from `tape` and
`unwrap`s `select_endpoint` (`none` models the panic). -/
def dispatchLoop (tape : Nat → Nat × Nat) : Nat → Manager → List Dispatchee → Option Manager
  | _, m, [] => some m
  | step, m, d :: ds =>
    match m.select_endpoint (tape step).1 (tape step).2 with
    | none => none
    | some addr =>
      dispatchLoop tape (step + 1)
        { m with available := omModify m.available addr (fun ep => ep.dispatch d) } ds

/-- `Manager::dispatch`: return immediately when `available` is empty,
else drain the intake queue (modelled by `ds`, the sequence of
`Ready(Some(_))` polls before the channel reports not-ready/closed). -/
def Manager.dispatch (m : Manager) (ds : List Dispatchee) (tape : Nat → Nat × Nat) :
    Option Manager :=
  if m.available.isEmpty then some m else dispatchLoop tape 0 m ds

/-! ### poll_connecting -/

/-- The per-poll counters (`ConnectionPollSummary`). -/
structure ConnectionPollSummary where
  pending : Nat := 0
  connected : Nat := 0
  dispatched : Nat := 0
  failed : Nat := 0
  deriving DecidableEq, Repr

/-- One iteration of the dial-advancing loop of `Manager::poll_connecting`:
the popped dial is polled once (`pollD` gives the outcome by dial id); a
not-ready dial is pushed back, a ready-ok dial becomes a connection (via
`mk_ctx`) pushed onto `connected`, an error bumps the failure counter. -/
def advanceStep (pollD : Nat → PollResult Sock) (name : Path)
    (acc : Endpoint × Nat) (d : Dial) : Endpoint × Nat :=
  match pollD d.id with
  | .notReady => ({ acc.1 with connecting := acc.1.connecting ++ [d] }, acc.2)
  | .ready sock =>
    let (ep2, ctx) := acc.1.mk_ctx sock.localAddr
    let conn : DstConnection := { dstName := name, sock := sock, ctx := ctx }
    ({ ep2 with connected := ep2.connected ++ [conn] }, acc.2)
  | .error => (acc.1, acc.2 + 1)

/-- The dial-advancing loop of one endpoint, folding `advanceStep` over the
drained `connecting` queue, starting from the endpoint with `connecting`
emptied. -/
def advanceEndpoint (pollD : Nat → PollResult Sock) (name : Path)
    (ep : Endpoint) (failed : Nat) : Endpoint × Nat :=
  ep.connecting.foldl (advanceStep pollD name) ({ ep with connecting := [] }, failed)

/-- The dial-advancing phase over all available endpoints, accumulating the
summary (`pending += connecting.len(); connected += connected.len()` after
each endpoint is advanced). -/
def advancePhase (pollD : Nat → PollResult Sock) (name : Path) :
    List (Addr × Endpoint) → ConnectionPollSummary →
    List (Addr × Endpoint) × ConnectionPollSummary
  | [], s => ([], s)
  | (addr, ep) :: rest, s =>
    let af := advanceEndpoint pollD name ep s.failed
    let s' := { s with
      failed := af.2
      pending := s.pending + af.1.connecting.length
      connected := s.connected + af.1.connected.length }
    let rs := advancePhase pollD name rest s'
    ((addr, af.1) :: rs.1, rs.2)

/-- The guard of the top-up `while` loop. -/
def topUpCond (avail : List (Addr × Endpoint)) (s : ConnectionPollSummary)
    (minConns : Nat) : Bool :=
  !avail.isEmpty && decide (s.connected + s.pending < minConns)

/-- One pass of the top-up `for` loop: one new dial per endpoint, polled
once immediately. `c k addr` is the outcome of the `k`-th `connect` call of
this `poll_connecting`. On not-ready the summary counts a pending
connection but the future is dropped (the `ep.connecting.push_back(fut)` is
commented out in the code); ready-ok builds a connection via `mk_ctx`;
error bumps `failed`. The pass breaks as soon as
`connected + pending == minimum_connections`. Returns the updated
endpoints, summary and next call counter. -/
def topUpPass (c : Nat → Addr → PollResult Sock) (minConns : Nat) (name : Path) :
    Nat → List (Addr × Endpoint) → ConnectionPollSummary →
    List (Addr × Endpoint) × ConnectionPollSummary × Nat
  | k, [], s => ([], s, k)
  | k, (addr, ep) :: rest, s =>
    let (ep', s') :=
      match c k addr with
      | .notReady => (ep, { s with pending := s.pending + 1 })
      | .ready sock =>
        let (ep2, ctx) := ep.mk_ctx sock.localAddr
        let conn : DstConnection := { dstName := name, sock := sock, ctx := ctx }
        ({ ep2 with connected := ep2.connected ++ [conn] },
         { s with connected := s.connected + 1 })
      | .error => (ep, { s with failed := s.failed + 1 })
    if s'.connected + s'.pending = minConns then ((addr, ep') :: rest, s', k + 1)
    else
      let r := topUpPass c minConns name (k + 1) rest s'
      ((addr, ep') :: r.1, r.2.1, r.2.2)

/-- The top-up `while` loop, fuelled by the number of passes it is allowed
to run. The boolean is `true` when the loop has exited (its guard became
false) and `false` when the fuel ran out with the guard still true — so
`∀ fuel, flag = false` says the loop never terminates. -/
def topUpGo (c : Nat → Addr → PollResult Sock) (minConns : Nat) (name : Path) :
    Nat → Nat → List (Addr × Endpoint) → ConnectionPollSummary →
    List (Addr × Endpoint) × ConnectionPollSummary × Bool
  | 0, _, avail, s => (avail, s, !topUpCond avail s minConns)
  | fuel + 1, k, avail, s =>
    if topUpCond avail s minConns then
      let r := topUpPass c minConns name k avail s
      topUpGo c minConns name fuel r.2.2 r.1 r.2.1
    else (avail, s, true)

/-- `Manager::poll_connecting`: advance the in-flight dials, then top up.
`fuel` bounds the number of top-up passes; the boolean is `false` exactly
when the top-up loop failed to exit within `fuel` passes. -/
def Manager.poll_connecting (m : Manager) (pollD : Nat → PollResult Sock)
    (c : Nat → Addr → PollResult Sock) (fuel : Nat) :
    Manager × ConnectionPollSummary × Bool :=
  let ap := advancePhase pollD m.dst_name m.available {}
  let tg := topUpGo c m.minimum_connections m.dst_name fuel 0 ap.1 ap.2
  ({ m with available := tg.1 }, tg.2.1, tg.2.2)

/-! ### update_resolved -/

/-- A resolver-supplied address/weight pair. -/
structure DstAddr where
  addr : Addr
  weight : ℚ
  deriving DecidableEq, Repr

/-- Build the `dsts: addr → weight` OrderMap from the update vector. -/
def buildDsts (resolved : List DstAddr) : List (Addr × ℚ) :=
  resolved.foldl (fun acc da => omInsert acc da.addr da.weight) []

/-- The retired sweep: drain `retired`; entries named by `dsts` are
salvaged into `available`, idle entries are dropped, the rest are kept in
`temp`. Returns the new `available` and `temp` (re-inserted into the
drained `retired` afterwards). -/
def retiredSweep (dsts : List (Addr × ℚ)) :
    List (Addr × Endpoint) → List (Addr × Endpoint) →
    List (Addr × Endpoint) × List (Addr × Endpoint)
  | [], avail => (avail, [])
  | (addr, ep) :: rest, avail =>
    if omContains dsts addr then retiredSweep dsts rest (omInsert avail addr ep)
    else if ep.is_idle then retiredSweep dsts rest avail
    else
      let (a, t) := retiredSweep dsts rest avail
      (a, (addr, ep) :: t)

/-- The available sweep: drain `available`; entries named by `dsts` are
kept in `temp` (re-inserted into `available` afterwards), idle entries are
dropped, the rest are moved into `retired`. Returns `temp` and the new
`retired`. -/
def availableSweep (dsts : List (Addr × ℚ)) :
    List (Addr × Endpoint) → List (Addr × Endpoint) →
    List (Addr × Endpoint) × List (Addr × Endpoint)
  | [], retired => ([], retired)
  | (addr, ep) :: rest, retired =>
    if omContains dsts addr then
      let (t, r) := availableSweep dsts rest retired
      ((addr, ep) :: t, r)
    else if ep.is_idle then availableSweep dsts rest retired
    else availableSweep dsts rest (omInsert retired addr ep)

/-- The upsert step: for each `(addr, weight)` drained from `dsts`,
`entry(addr).or_insert_with(Endpoint::new)` then `ep.weight = weight`. -/
def upsertDsts (name : Path) : List (Addr × ℚ) → List (Addr × Endpoint) →
    List (Addr × Endpoint)
  | [], avail => avail
  | (addr, w) :: rest, avail =>
    let avail1 := if omContains avail addr then avail
                  else avail ++ [(addr, Endpoint.new name addr w)]
    let avail2 := avail1.map (fun p => if p.1 == addr then (p.1, { p.2 with weight := w }) else p)
    upsertDsts name rest avail2

/-- Re-insert a drained scratch buffer into an (emptied) OrderMap, in
order. -/
def reinsertAll (init : List (Addr × Endpoint)) (temp : List (Addr × Endpoint)) :
    List (Addr × Endpoint) :=
  temp.foldl (fun acc p => omInsert acc p.1 p.2) init

/-- `Manager::update_resolved`: an `Err` result leaves the table unchanged;
an `Ok` vector drives the retired sweep, the available sweep and the
upsert, in that order. -/
def Manager.update_resolved (m : Manager) (resolved : Except Unit (List DstAddr)) :
    Manager :=
  match resolved with
  | .error _ => m
  | .ok resolved =>
    let dsts := buildDsts resolved
    let rs := retiredSweep dsts m.retired m.available
    let retired1 := reinsertAll [] rs.2
    let asw := availableSweep dsts rs.1 retired1
    let avail2 := reinsertAll [] asw.1
    let avail3 := upsertDsts m.dst_name dsts avail2
    { m with available := avail3, retired := asw.2 }

/-! ### Sequences of manager operations -/

/-- One observable manager operation, with its external inputs: a resolver
update, a drain of the dispatch intake, or a `poll_connecting` wake. -/
inductive MgrOp where
  | update (resolved : Except Unit (List DstAddr))
  | dispatchIntake (ds : List Dispatchee) (tape : Nat → Nat × Nat)
  | poll (pollD : Nat → PollResult Sock) (c : Nat → Addr → PollResult Sock) (fuel : Nat)

/-- Apply one operation to the manager state. A `dispatch` whose `unwrap`
would panic (never reached from a live manager) contributes no state
change; an exhausted `poll_connecting` fuel yields the state after the
passes run. -/
def applyOp (m : Manager) : MgrOp → Manager
  | .update resolved => m.update_resolved resolved
  | .dispatchIntake ds tape => (m.dispatch ds tape).getD m
  | .poll pollD c fuel => (m.poll_connecting pollD c fuel).1

/-- Run a sequence of operations from a state. -/
def runOps (m : Manager) (ops : List MgrOp) : Manager :=
  ops.foldl applyOp m

/-! ### Poll-outcome discriminators -/

/-- Whether a poll outcome is `Ok(Async::NotReady)`. -/
def isNotReadyB {α : Type} : PollResult α → Bool
  | .notReady => true
  | _ => false

/-- Whether a poll outcome is `Ok(Async::Ready(_))`. -/
def isReadyB {α : Type} : PollResult α → Bool
  | .ready _ => true
  | _ => false

/-- Whether a poll outcome is `Err(_)`. -/
def isErrorB {α : Type} : PollResult α → Bool
  | .error => true
  | _ => false

/-! ### Concrete sample states and the partition invariant -/

/-- A pre-warmed connection parked on endpoint `5`. -/
def c4conn : DstConnection :=
  { dstName := 0, sock := { localAddr := 9 },
    ctx := { dstName := 0, localAddr := 9, peerAddr := 5, ch := 0 } }

/-- An endpoint holding both a connected socket and a queued dispatchee. -/
def c4ep : Endpoint :=
  { Endpoint.new 0 5 1 with
    connected := [c4conn], dispatchees := [{ id := 0, accepts := true }],
    completing := [0], nextCh := 1 }

/-- A manager whose sole available endpoint is `c4ep` and whose connection
target is already met. -/
def c4mgr : Manager :=
  { dst_name := 0, minimum_connections := 0, available := [(5, c4ep)], retired := [] }

/-- A three-endpoint manager used to instantiate the selection contract. -/
def c6mgr : Manager :=
  { dst_name := 0, minimum_connections := 0,
    available := [(1, Endpoint.new 0 1 1), (2, Endpoint.new 0 2 1),
                  (3, Endpoint.new 0 3 1)],
    retired := [] }

/-- A one-endpoint manager used to instantiate the dispatch-safety
theorem. -/
def c10mgr : Manager :=
  { dst_name := 0, minimum_connections := 1,
    available := [(4, Endpoint.new 0 4 1)], retired := [] }

/-- Invariant 1 of §3: no peer address is simultaneously in both endpoint
tables. -/
def DisjointKeys (m : Manager) : Prop :=
  ∀ a, a ∈ keysOf m.available → a ∉ keysOf m.retired

/-! ### Theorems -/

/-- C7: `update_resolved` called with a resolver result carrying an error
leaves the manager — both endpoint tables and every endpoint record —
completely unchanged. -/
theorem C7_update_resolved_error_noop (m : Manager) (e : Unit) :
    m.update_resolved (.error e) = m := rfl

/-- C1: contrary to the claim, `Endpoint::dispatch` never changes `load` —
in particular a successful hand-off of a connected socket does not
increment it by 1.0 (no statement in the function, or anywhere else in the
module, updates `load`). -/
theorem C1_dispatch_leaves_load_unchanged (ep : Endpoint) (d : Dispatchee) :
    (ep.dispatch d).load = ep.load := by
  cases h : ep.connected with
  | nil => simp [Endpoint.dispatch, h]
  | cons c rest =>
    by_cases hd : d.accepts <;> simp [Endpoint.dispatch, h, hd]

/-- C2: contrary to the claim, a newly initiated dial that polls not-ready
during top-up is not placed into the endpoint's `connecting` queue: the
summary counts one pending connection but the endpoint is returned with
`connecting` still empty (the future is dropped; the push is commented out
in the code). -/
theorem C2_topup_notready_dial_dropped :
    topUpGo (fun _ _ => .notReady) 1 0 1 0 [(7, Endpoint.new 0 7 1)] {} =
      ([(7, Endpoint.new 0 7 1)],
        { pending := 1, connected := 0, dispatched := 0, failed := 0 }, true) ∧
    (Endpoint.new 0 7 1).connecting = [] := ⟨rfl, rfl⟩

/-- With an always-failing connector and a positive target, one top-up pass
changes neither the endpoints nor the `connected`/`pending` counters, so
the loop guard stays true. -/
theorem topUpPass_error_spec (minConns : Nat) (name : Path) (hmin : 0 < minConns) :
    ∀ (avail : List (Addr × Endpoint)) (k : Nat) (s : ConnectionPollSummary),
      s.connected = 0 → s.pending = 0 →
      topUpPass (fun _ _ => .error) minConns name k avail s =
        (avail, { s with failed := s.failed + avail.length }, k + avail.length) := by
  intro avail
  induction avail with
  | nil => intro k s hc hp; simp [topUpPass]
  | cons hd tl ih =>
    intro k s hc hp
    obtain ⟨addr, ep⟩ := hd
    obtain ⟨p, c, dp, fl⟩ := s
    simp only at hc hp
    subst hc hp
    rw [topUpPass]
    simp only
    rw [if_neg (by omega)]
    rw [ih (k + 1) { pending := 0, connected := 0, dispatched := dp, failed := fl + 1 }
        rfl rfl]
    simp only [List.length_cons, Prod.mk.injEq, ConnectionPollSummary.mk.injEq,
      true_and, and_true, eq_self_iff_true]
    omega

/-- With an always-failing connector, a non-empty available set and a
positive target, the top-up `while` loop never exits, whatever number of
passes it is given. -/
theorem topUpGo_error_no_exit (minConns : Nat) (name : Path) (hmin : 0 < minConns) :
    ∀ (fuel k : Nat) (avail : List (Addr × Endpoint)) (s : ConnectionPollSummary),
      avail ≠ [] → s.connected = 0 → s.pending = 0 →
      (topUpGo (fun _ _ => .error) minConns name fuel k avail s).2.2 = false := by
  intro fuel
  induction fuel with
  | zero =>
    intro k avail s hne hc hp
    have hcond : topUpCond avail s minConns = true := by
      simp [topUpCond, hc, hp, hmin, List.isEmpty_iff, hne]
    simp [topUpGo, hcond]
  | succ n ih =>
    intro k avail s hne hc hp
    have hcond : topUpCond avail s minConns = true := by
      simp [topUpCond, hc, hp, hmin, List.isEmpty_iff, hne]
    rw [topUpGo, if_pos hcond, topUpPass_error_spec minConns name hmin avail k s hc hp]
    exact ih (k + avail.length) avail { s with failed := s.failed + avail.length } hne hc hp

/-- C3: contrary to the claim, the top-up loop does not terminate for every
input: with one available endpoint, `minimum_connections = 1` and a
connector whose dials always fail, the loop guard remains true after any
number of passes — `poll_connecting` never returns (the failure counter
grows without bound instead). -/
theorem C3_topup_loops_forever_on_failing_dials (fuel : Nat) :
    (topUpGo (fun _ _ => .error) 1 0 fuel 0 [(7, Endpoint.new 0 7 1)] {}).2.2 = false :=
  topUpGo_error_no_exit 1 0 (by decide) fuel 0 [(7, Endpoint.new 0 7 1)] {}
    (by simp) rfl rfl


/-- C4: contrary to the claim, `poll_connecting` performs no opportunistic
drain after top-up: on an endpoint holding both a connected socket and a
queued dispatchee (with the top-up target already met, so the loop exits
at once), the call returns with the socket and the dispatchee still both
queued, unpaired — no code in `poll_connecting` ever pops `dispatchees`. -/
theorem C4_poll_connecting_has_no_drain :
    (c4mgr.poll_connecting (fun _ => .notReady) (fun _ _ => .notReady) 1).1.available =
      [(5, c4ep)] ∧
    (c4mgr.poll_connecting (fun _ => .notReady) (fun _ _ => .notReady) 1).2.2 = true ∧
    c4ep.connected = [c4conn] ∧
    c4ep.dispatchees = [{ id := 0, accepts := true }] := ⟨rfl, rfl, rfl, rfl⟩

/-- C8 counterexample: in the dial-advancing phase, a ready-ok dial does
create a `DstCtx` and append a receiver to `completing`: advancing an
endpoint with one ready dial grows `completing` from `[]` to one receiver.
This refutes the claim that context creation happens only upon later
dispatch and that `completing` is unchanged by this phase. -/
theorem C8_counterexample_ready_dial_appends_completing :
    (advanceEndpoint (fun _ => .ready { localAddr := 3 }) 0
        { Endpoint.new 0 7 1 with connecting := [{ id := 0 }] } 0).1.completing = [0] ∧
    ({ Endpoint.new 0 7 1 with connecting := [{ id := 0 }] } : Endpoint).completing =
      [] := ⟨rfl, rfl⟩

/-- The dial-advancing fold keeps exactly the not-ready dials in
`connecting`, in their original order, appended to the accumulator's. -/
theorem advance_foldl_connecting (pollD : Nat → PollResult Sock) (name : Path) :
    ∀ (cs : List Dial) (e : Endpoint) (f : Nat),
      (cs.foldl (advanceStep pollD name) (e, f)).1.connecting =
        e.connecting ++ cs.filter (fun d => isNotReadyB (pollD d.id)) := by
  intro cs
  induction cs with
  | nil => intro e f; simp
  | cons d tl ih =>
    intro e f
    rw [List.foldl_cons]
    cases hpoll : pollD d.id <;>
      simp [advanceStep, hpoll, Endpoint.mk_ctx, ih, List.filter_cons, isNotReadyB]

/-- The dial-advancing fold appends one connection per ready dial. -/
theorem advance_foldl_connected (pollD : Nat → PollResult Sock) (name : Path) :
    ∀ (cs : List Dial) (e : Endpoint) (f : Nat),
      (cs.foldl (advanceStep pollD name) (e, f)).1.connected.length =
        e.connected.length + cs.countP (fun d => isReadyB (pollD d.id)) := by
  intro cs
  induction cs with
  | nil => intro e f; simp
  | cons d tl ih =>
    intro e f
    rw [List.foldl_cons]
    cases hpoll : pollD d.id <;>
      simp [advanceStep, hpoll, Endpoint.mk_ctx, ih, List.countP_cons, isReadyB] <;>
      omega

/-- The dial-advancing fold appends one `completing` receiver per ready
dial (`mk_ctx` is called right there). -/
theorem advance_foldl_completing (pollD : Nat → PollResult Sock) (name : Path) :
    ∀ (cs : List Dial) (e : Endpoint) (f : Nat),
      (cs.foldl (advanceStep pollD name) (e, f)).1.completing.length =
        e.completing.length + cs.countP (fun d => isReadyB (pollD d.id)) := by
  intro cs
  induction cs with
  | nil => intro e f; simp
  | cons d tl ih =>
    intro e f
    rw [List.foldl_cons]
    cases hpoll : pollD d.id <;>
      simp [advanceStep, hpoll, Endpoint.mk_ctx, ih, List.countP_cons, isReadyB] <;>
      omega

/-- The dial-advancing fold never touches the `dispatchees` queue. -/
theorem advance_foldl_dispatchees (pollD : Nat → PollResult Sock) (name : Path) :
    ∀ (cs : List Dial) (e : Endpoint) (f : Nat),
      (cs.foldl (advanceStep pollD name) (e, f)).1.dispatchees = e.dispatchees := by
  intro cs
  induction cs with
  | nil => intro e f; rfl
  | cons d tl ih =>
    intro e f
    rw [List.foldl_cons]
    cases hpoll : pollD d.id <;> simp [advanceStep, hpoll, Endpoint.mk_ctx, ih]

/-- The dial-advancing fold never touches `load`. -/
theorem advance_foldl_load (pollD : Nat → PollResult Sock) (name : Path) :
    ∀ (cs : List Dial) (e : Endpoint) (f : Nat),
      (cs.foldl (advanceStep pollD name) (e, f)).1.load = e.load := by
  intro cs
  induction cs with
  | nil => intro e f; rfl
  | cons d tl ih =>
    intro e f
    rw [List.foldl_cons]
    cases hpoll : pollD d.id <;> simp [advanceStep, hpoll, Endpoint.mk_ctx, ih]

/-- The dial-advancing fold counts one failure per ready-error dial. -/
theorem advance_foldl_failed (pollD : Nat → PollResult Sock) (name : Path) :
    ∀ (cs : List Dial) (e : Endpoint) (f : Nat),
      (cs.foldl (advanceStep pollD name) (e, f)).2 =
        f + cs.countP (fun d => isErrorB (pollD d.id)) := by
  intro cs
  induction cs with
  | nil => intro e f; simp
  | cons d tl ih =>
    intro e f
    rw [List.foldl_cons]
    cases hpoll : pollD d.id <;>
      simp [advanceStep, hpoll, Endpoint.mk_ctx, ih, List.countP_cons, isErrorB] <;>
      omega

/-- C8 (amended): in the dial-advancing phase, a not-ready dial remains in
`connecting` (order preserved), a ready-ok dial moves the socket into
`connected` and — unlike the claim — creates a `DstCtx` right there,
appending one receiver to `completing` per ready dial, and a ready-error
dial is counted as failed and dropped; `dispatchees` and `load` are
untouched. -/
theorem C8_advance_phase_spec (pollD : Nat → PollResult Sock) (name : Path)
    (ep : Endpoint) (f0 : Nat) :
    (advanceEndpoint pollD name ep f0).1.connecting =
        ep.connecting.filter (fun d => isNotReadyB (pollD d.id)) ∧
    (advanceEndpoint pollD name ep f0).1.connected.length =
        ep.connected.length + ep.connecting.countP (fun d => isReadyB (pollD d.id)) ∧
    (advanceEndpoint pollD name ep f0).1.completing.length =
        ep.completing.length + ep.connecting.countP (fun d => isReadyB (pollD d.id)) ∧
    (advanceEndpoint pollD name ep f0).1.dispatchees = ep.dispatchees ∧
    (advanceEndpoint pollD name ep f0).1.load = ep.load ∧
    (advanceEndpoint pollD name ep f0).2 =
        f0 + ep.connecting.countP (fun d => isErrorB (pollD d.id)) := by
  simp only [advanceEndpoint]
  refine ⟨?_, ?_, ?_, ?_, ?_, ?_⟩
  · simpa using advance_foldl_connecting pollD name ep.connecting
      { ep with connecting := [] } f0
  · simpa using advance_foldl_connected pollD name ep.connecting
      { ep with connecting := [] } f0
  · simpa using advance_foldl_completing pollD name ep.connecting
      { ep with connecting := [] } f0
  · simpa using advance_foldl_dispatchees pollD name ep.connecting
      { ep with connecting := [] } f0
  · simpa using advance_foldl_load pollD name ep.connecting
      { ep with connecting := [] } f0
  · simpa using advance_foldl_failed pollD name ep.connecting
      { ep with connecting := [] } f0

/-! ### OrderMap lemmas -/

theorem omContains_iff {β : Type} (m : List (Addr × β)) (k : Addr) :
    omContains m k = true ↔ k ∈ keysOf m := by
  simp [omContains, List.any_eq_true, keysOf, List.mem_map]

/-- Replacing an existing key in place leaves the key list unchanged. -/
theorem keysOf_omInsert_of_contains {β : Type} (m : List (Addr × β)) (k : Addr)
    (v : β) (hc : omContains m k = true) :
    keysOf (omInsert m k v) = keysOf m := by
  simp only [omInsert, if_pos hc, keysOf, List.map_map]
  apply List.map_congr_left
  intro p _
  by_cases hpk : p.1 = k <;> simp [Function.comp, hpk]

theorem mem_keysOf_omInsert {β : Type} (m : List (Addr × β)) (k : Addr) (v : β)
    (a : Addr) : a ∈ keysOf (omInsert m k v) ↔ a ∈ keysOf m ∨ a = k := by
  by_cases hc : omContains m k
  · rw [keysOf_omInsert_of_contains m k v hc]
    have hk : k ∈ keysOf m := (omContains_iff m k).mp hc
    constructor
    · exact Or.inl
    · rintro (h | rfl)
      · exact h
      · exact hk
  · simp [omInsert, if_neg hc, keysOf]

theorem keysOf_omModify {β : Type} (m : List (Addr × β)) (k : Addr) (f : β → β) :
    keysOf (omModify m k f) = keysOf m := by
  simp only [omModify, keysOf, List.map_map]
  apply List.map_congr_left
  intro p _
  by_cases hpk : p.1 = k <;> simp [Function.comp, hpk]

theorem length_omModify {β : Type} (m : List (Addr × β)) (k : Addr) (f : β → β) :
    (omModify m k f).length = m.length := List.length_map _ _

/-! ### select_endpoint -/

/-- With a non-empty available set and in-range random indices,
`select_endpoint` returns an endpoint (the `unwrap`s inside never fail). -/
theorem select_endpoint_isSome (m : Manager) (i0 i1 : Nat)
    (hne : m.available ≠ [])
    (h3 : 3 ≤ m.available.length →
      i0 < m.available.length ∧ i1 < m.available.length) :
    ∃ a, m.select_endpoint i0 i1 = some a := by
  have hlen0 : m.available.length ≠ 0 := by
    simpa [List.length_eq_zero] using hne
  rw [Manager.select_endpoint, if_neg hlen0]
  by_cases h1 : m.available.length = 1
  · rw [if_pos h1]
    obtain ⟨p, hp⟩ : ∃ p, m.available.get? 0 = some p := by
      apply Option.ne_none_iff_exists'.mp
      rw [Ne, List.get?_eq_none]
      omega
    exact ⟨p.1, by rw [hp]; rfl⟩
  · rw [if_neg h1]
    have hij : (if m.available.length = 2 then (0 : Nat) else i0) <
        m.available.length ∧
        (if m.available.length = 2 then (1 : Nat) else i1) < m.available.length := by
      by_cases h2 : m.available.length = 2
      · simp [h2]
      · have h3' := h3 (by omega)
        simpa [h2] using h3'
    obtain ⟨p0, hp0⟩ : ∃ p0, m.available.get?
        (if m.available.length = 2 then 0 else i0) = some p0 := by
      apply Option.ne_none_iff_exists'.mp
      rw [Ne, List.get?_eq_none]
      omega
    obtain ⟨p1, hp1⟩ : ∃ p1, m.available.get?
        (if m.available.length = 2 then 1 else i1) = some p1 := by
      apply Option.ne_none_iff_exists'.mp
      rw [Ne, List.get?_eq_none]
      omega
    refine ⟨if F32.le p0.2.load p1.2.load then p0.1 else p1.1, ?_⟩
    simp only [hp0, hp1]

/-- With at least two available endpoints and in-range candidate indices,
`select_endpoint` inspects the two candidate entries and returns the
less-loaded one, ties resolving to the first. -/
theorem select_endpoint_two_le (m : Manager) (i0 i1 : Nat)
    (h2 : 2 ≤ m.available.length)
    (hj0 : (if m.available.length = 2 then 0 else i0) < m.available.length)
    (hj1 : (if m.available.length = 2 then 1 else i1) < m.available.length) :
    ∃ p0 p1,
      m.available.get? (if m.available.length = 2 then 0 else i0) = some p0 ∧
      m.available.get? (if m.available.length = 2 then 1 else i1) = some p1 ∧
      m.select_endpoint i0 i1 =
        some (if F32.le p0.2.load p1.2.load then p0.1 else p1.1) := by
  obtain ⟨p0, hp0⟩ : ∃ p0, m.available.get?
      (if m.available.length = 2 then 0 else i0) = some p0 := by
    apply Option.ne_none_iff_exists'.mp
    rw [Ne, List.get?_eq_none]
    omega
  obtain ⟨p1, hp1⟩ : ∃ p1, m.available.get?
      (if m.available.length = 2 then 1 else i1) = some p1 := by
    apply Option.ne_none_iff_exists'.mp
    rw [Ne, List.get?_eq_none]
    omega
  refine ⟨p0, p1, hp0, hp1, ?_⟩
  rw [Manager.select_endpoint, if_neg (by omega), if_neg (by omega)]
  simp only [hp0, hp1]

/-- C6: `select_endpoint` returns `none` iff the available set is empty;
any returned address is a key of the available set; and with two or more
endpoints the two inspected candidates are indices `0` and `1` when
`n = 2`, or the two supplied distinct random indices when `n ≥ 3`, and the
one with the smaller load is returned, ties resolving to the first
candidate. -/
theorem C6_select_endpoint_contract (m : Manager) (i0 i1 : Nat)
    (h3 : 3 ≤ m.available.length →
      i0 < m.available.length ∧ i1 < m.available.length ∧ i0 ≠ i1) :
    (m.select_endpoint i0 i1 = none ↔ m.available = []) ∧
    (∀ a, m.select_endpoint i0 i1 = some a → a ∈ keysOf m.available) ∧
    (2 ≤ m.available.length →
      ∃ j0 j1 p0 p1,
        ((m.available.length = 2 ∧ j0 = 0 ∧ j1 = 1) ∨
          (3 ≤ m.available.length ∧ j0 = i0 ∧ j1 = i1)) ∧
        m.available.get? j0 = some p0 ∧ m.available.get? j1 = some p1 ∧
        m.select_endpoint i0 i1 =
          some (if F32.le p0.2.load p1.2.load then p0.1 else p1.1)) := by
  refine ⟨⟨?_, ?_⟩, ?_, ?_⟩
  · intro hnone
    by_contra hne
    obtain ⟨a, ha⟩ :=
      select_endpoint_isSome m i0 i1 hne (fun h => ⟨(h3 h).1, (h3 h).2.1⟩)
    rw [ha] at hnone
    exact Option.noConfusion hnone
  · intro hl
    simp [Manager.select_endpoint, hl]
  · intro a ha
    by_cases hl : m.available = []
    · rw [Manager.select_endpoint] at ha
      simp [hl] at ha
    · by_cases h1 : m.available.length = 1
      · rw [Manager.select_endpoint,
          if_neg (by simpa [List.length_eq_zero] using hl), if_pos h1] at ha
        obtain ⟨p, hp⟩ : ∃ p, m.available.get? 0 = some p := by
          apply Option.ne_none_iff_exists'.mp
          rw [Ne, List.get?_eq_none]
          omega
        rw [hp] at ha
        simp only [Option.map_some', Option.some.injEq] at ha
        exact ha ▸ List.mem_map_of_mem Prod.fst (List.get?_mem hp)
      · have h2 : 2 ≤ m.available.length := by
          have : m.available.length ≠ 0 := by
            simpa [List.length_eq_zero] using hl
          omega
        have hj0 : (if m.available.length = 2 then 0 else i0) <
            m.available.length := by
          by_cases he : m.available.length = 2
          · simp [he]
          · simpa [he] using (h3 (by omega)).1
        have hj1 : (if m.available.length = 2 then 1 else i1) <
            m.available.length := by
          by_cases he : m.available.length = 2
          · simp [he]
          · simpa [he] using (h3 (by omega)).2.1
        obtain ⟨p0, p1, hp0, hp1, hsel⟩ :=
          select_endpoint_two_le m i0 i1 h2 hj0 hj1
        rw [hsel, Option.some.injEq] at ha
        by_cases hle : F32.le p0.2.load p1.2.load
        · rw [if_pos hle] at ha
          exact ha ▸ List.mem_map_of_mem Prod.fst (List.get?_mem hp0)
        · rw [if_neg hle] at ha
          exact ha ▸ List.mem_map_of_mem Prod.fst (List.get?_mem hp1)
  · intro h2
    have hj0 : (if m.available.length = 2 then 0 else i0) <
        m.available.length := by
      by_cases he : m.available.length = 2
      · simp [he]
      · simpa [he] using (h3 (by omega)).1
    have hj1 : (if m.available.length = 2 then 1 else i1) <
        m.available.length := by
      by_cases he : m.available.length = 2
      · simp [he]
      · simpa [he] using (h3 (by omega)).2.1
    obtain ⟨p0, p1, hp0, hp1, hsel⟩ := select_endpoint_two_le m i0 i1 h2 hj0 hj1
    by_cases he : m.available.length = 2
    · rw [if_pos he] at hp0
      rw [if_pos he] at hp1
      exact ⟨0, 1, p0, p1, Or.inl ⟨he, rfl, rfl⟩, hp0, hp1, hsel⟩
    · rw [if_neg he] at hp0
      rw [if_neg he] at hp1
      exact ⟨i0, i1, p0, p1, Or.inr ⟨by omega, rfl, rfl⟩, hp0, hp1, hsel⟩


/-- Concrete instantiation of the C6 selection contract at a three-endpoint
table with random draws `(0, 2)`. -/
theorem C6_witness :
    (3 ≤ c6mgr.available.length →
      0 < c6mgr.available.length ∧ 2 < c6mgr.available.length ∧ (0 : Nat) ≠ 2) ∧
    ((c6mgr.select_endpoint 0 2 = none ↔ c6mgr.available = []) ∧
     (∀ a, c6mgr.select_endpoint 0 2 = some a → a ∈ keysOf c6mgr.available) ∧
     (2 ≤ c6mgr.available.length →
       ∃ j0 j1 p0 p1,
         ((c6mgr.available.length = 2 ∧ j0 = 0 ∧ j1 = 1) ∨
           (3 ≤ c6mgr.available.length ∧ j0 = 0 ∧ j1 = 2)) ∧
         c6mgr.available.get? j0 = some p0 ∧ c6mgr.available.get? j1 = some p1 ∧
         c6mgr.select_endpoint 0 2 =
           some (if F32.le p0.2.load p1.2.load then p0.1 else p1.1))) :=
  ⟨fun _ => ⟨by decide, by decide, by decide⟩,
    C6_select_endpoint_contract c6mgr 0 2 (fun _ => ⟨by decide, by decide, by decide⟩)⟩

/-! ### omGet lemmas -/

theorem omGet_append_of_not_mem {β : Type} (l1 l2 : List (Addr × β)) (a : Addr)
    (h : a ∉ keysOf l1) : omGet (l1 ++ l2) a = omGet l2 a := by
  have hnone : l1.find? (fun q => q.1 == a) = none := by
    rw [List.find?_eq_none]
    intro x hx
    simp only [beq_iff_eq]
    intro hxa
    exact h (hxa ▸ List.mem_map_of_mem Prod.fst hx)
  simp [omGet, List.find?_append, hnone]

theorem omGet_append_of_some {β : Type} (l1 l2 : List (Addr × β)) (a : Addr)
    (v : β) (h : omGet l1 a = some v) : omGet (l1 ++ l2) a = some v := by
  simp only [omGet] at h ⊢
  obtain ⟨p, hp, hmap⟩ := Option.map_eq_some'.mp h
  rw [List.find?_append, hp]
  simp [hmap]

theorem omGet_singleton_self {β : Type} (a : Addr) (v : β) :
    omGet [(a, v)] a = some v := by
  simp [omGet]

/-- An entry-wise weight update neither moves entries nor changes loads. -/
theorem omGet_weightMap (k : Addr) (w : ℚ) :
    ∀ (avail : List (Addr × Endpoint)) (a : Addr),
      (omGet (avail.map
          (fun p => if p.1 == k then (p.1, { p.2 with weight := w }) else p)) a).map
        Endpoint.load = (omGet avail a).map Endpoint.load := by
  intro avail
  induction avail with
  | nil => intro a; rfl
  | cons p tl ih =>
    intro a
    have hfst : ((if p.1 == k then (p.1, { p.2 with weight := w }) else p) :
        Addr × Endpoint).1 = p.1 := by
      by_cases hpk : p.1 = k <;> simp [hpk]
    have hload : ((if p.1 == k then (p.1, { p.2 with weight := w }) else p) :
        Addr × Endpoint).2.load = p.2.load := by
      by_cases hpk : p.1 = k <;> simp [hpk]
    by_cases hpa : p.1 = a
    · have hpos1 : (((if p.1 == k then (p.1, { p.2 with weight := w }) else p) :
          Addr × Endpoint).1 == a) = true := by
        rw [hfst]
        exact beq_iff_eq.mpr hpa
      have hpos2 : (p.1 == a) = true := beq_iff_eq.mpr hpa
      simp only [omGet, List.map_cons]
      rw [List.find?_cons_of_pos (p := fun q : Addr × Endpoint => q.1 == a) _ hpos1,
          List.find?_cons_of_pos (p := fun q : Addr × Endpoint => q.1 == a) _ hpos2]
      simp only [Option.map_some', hload]
    · have hneg1 : ¬ ((((if p.1 == k then (p.1, { p.2 with weight := w }) else p) :
          Addr × Endpoint).1 == a) = true) := by
        rw [hfst]
        simp [hpa]
      have hneg2 : ¬ ((p.1 == a) = true) := by simp [hpa]
      simp only [omGet, List.map_cons]
      rw [List.find?_cons_of_neg (p := fun q : Addr × Endpoint => q.1 == a) _ hneg1,
          List.find?_cons_of_neg (p := fun q : Addr × Endpoint => q.1 == a) _ hneg2]
      exact ih a

/-- An entry-wise weight update leaves the key list unchanged. -/
theorem keysOf_weightMap (avail : List (Addr × Endpoint)) (k : Addr) (w : ℚ) :
    keysOf (avail.map
        (fun p => if p.1 == k then (p.1, { p.2 with weight := w }) else p)) =
      keysOf avail := by
  simp only [keysOf, List.map_map]
  apply List.map_congr_left
  intro p _
  by_cases hpk : p.1 = k <;> simp [Function.comp, hpk]

/-! ### Key-tracking lemmas for update_resolved -/

/-- Keys accumulated into `available` by the retired sweep come from the
accumulator or the drained retired entries. -/
theorem retiredSweep_avail_mem (dsts : List (Addr × ℚ)) :
    ∀ (rs acc : List (Addr × Endpoint)) (a : Addr),
      a ∈ keysOf (retiredSweep dsts rs acc).1 →
      a ∈ keysOf acc ∨ a ∈ keysOf rs := by
  intro rs
  induction rs with
  | nil => intro acc a h; exact Or.inl h
  | cons p tl ih =>
    intro acc a h
    obtain ⟨addr, ep⟩ := p
    rw [retiredSweep] at h
    by_cases hc : omContains dsts addr
    · rw [if_pos hc] at h
      rcases ih (omInsert acc addr ep) a h with h' | h'
      · rcases (mem_keysOf_omInsert acc addr ep a).mp h' with h'' | h''
        · exact Or.inl h''
        · exact Or.inr (by simp [keysOf, h''])
      · exact Or.inr (by simp [keysOf]; exact Or.inr (by simpa [keysOf] using h'))
    · rw [if_neg hc] at h
      by_cases hi : ep.is_idle
      · rw [if_pos hi] at h
        rcases ih acc a h with h' | h'
        · exact Or.inl h'
        · exact Or.inr (by simp [keysOf]; exact Or.inr (by simpa [keysOf] using h'))
      · rw [if_neg hi] at h
        rcases ih acc a h with h' | h'
        · exact Or.inl h'
        · exact Or.inr (by simp [keysOf]; exact Or.inr (by simpa [keysOf] using h'))

/-- Entries kept retired by the retired sweep are absent from `dsts`. -/
theorem retiredSweep_temp_not_contains (dsts : List (Addr × ℚ)) :
    ∀ (rs acc : List (Addr × Endpoint)) (a : Addr),
      a ∈ keysOf (retiredSweep dsts rs acc).2 →
      omContains dsts a = false := by
  intro rs
  induction rs with
  | nil => intro acc a h; simp [retiredSweep, keysOf] at h
  | cons p tl ih =>
    intro acc a h
    obtain ⟨addr, ep⟩ := p
    rw [retiredSweep] at h
    by_cases hc : omContains dsts addr
    · rw [if_pos hc] at h
      exact ih (omInsert acc addr ep) a h
    · rw [if_neg hc] at h
      by_cases hi : ep.is_idle
      · rw [if_pos hi] at h
        exact ih acc a h
      · rw [if_neg hi] at h
        simp only [keysOf, List.map_cons, List.mem_cons] at h
        rcases h with h' | h'
        · simpa [h'] using hc
        · exact ih acc a h'

/-- Keys kept for `available` by the available sweep come from the drained
available entries. -/
theorem availableSweep_temp_mem (dsts : List (Addr × ℚ)) :
    ∀ (as r : List (Addr × Endpoint)) (a : Addr),
      a ∈ keysOf (availableSweep dsts as r).1 → a ∈ keysOf as := by
  intro as
  induction as with
  | nil => intro r a h; simp [availableSweep, keysOf] at h
  | cons p tl ih =>
    intro r a h
    obtain ⟨addr, ep⟩ := p
    rw [availableSweep] at h
    by_cases hc : omContains dsts addr
    · rw [if_pos hc] at h
      simp only [keysOf, List.map_cons, List.mem_cons] at h ⊢
      rcases h with h' | h'
      · exact Or.inl h'
      · exact Or.inr (ih r a h')
    · rw [if_neg hc] at h
      by_cases hi : ep.is_idle
      · rw [if_pos hi] at h
        exact List.mem_cons_of_mem _ (ih r a h)
      · rw [if_neg hi] at h
        exact List.mem_cons_of_mem _ (ih (omInsert r addr ep) a h)

/-- Keys kept for `available` by the available sweep are present in
`dsts`. -/
theorem availableSweep_temp_contains (dsts : List (Addr × ℚ)) :
    ∀ (as r : List (Addr × Endpoint)) (a : Addr),
      a ∈ keysOf (availableSweep dsts as r).1 → omContains dsts a = true := by
  intro as
  induction as with
  | nil => intro r a h; simp [availableSweep, keysOf] at h
  | cons p tl ih =>
    intro r a h
    obtain ⟨addr, ep⟩ := p
    rw [availableSweep] at h
    by_cases hc : omContains dsts addr
    · rw [if_pos hc] at h
      simp only [keysOf, List.map_cons, List.mem_cons] at h
      rcases h with h' | h'
      · exact h' ▸ hc
      · exact ih r a h'
    · rw [if_neg hc] at h
      by_cases hi : ep.is_idle
      · rw [if_pos hi] at h
        exact ih r a h
      · rw [if_neg hi] at h
        exact ih (omInsert r addr ep) a h

/-- If every key already retired is absent from `dsts`, the same holds
after the available sweep (moved entries are exactly the non-`dsts`,
non-idle available ones). -/
theorem availableSweep_retired_not_contains (dsts : List (Addr × ℚ)) :
    ∀ (as r : List (Addr × Endpoint)),
      (∀ b, b ∈ keysOf r → omContains dsts b = false) →
      ∀ a, a ∈ keysOf (availableSweep dsts as r).2 →
      omContains dsts a = false := by
  intro as
  induction as with
  | nil => intro r hr a h; exact hr a h
  | cons p tl ih =>
    intro r hr a h
    obtain ⟨addr, ep⟩ := p
    rw [availableSweep] at h
    by_cases hc : omContains dsts addr
    · rw [if_pos hc] at h
      exact ih r hr a h
    · rw [if_neg hc] at h
      by_cases hi : ep.is_idle
      · rw [if_pos hi] at h
        exact ih r hr a h
      · rw [if_neg hi] at h
        refine ih (omInsert r addr ep) ?_ a h
        intro b hb
        rcases (mem_keysOf_omInsert r addr ep b).mp hb with hb' | hb'
        · exact hr b hb'
        · exact hb' ▸ (by simpa [Bool.not_eq_true] using hc)

/-- Keys of a re-inserted scratch buffer come from the initial map or the
buffer. -/
theorem mem_keysOf_reinsertAll :
    ∀ (l init : List (Addr × Endpoint)) (a : Addr),
      a ∈ keysOf (reinsertAll init l) → a ∈ keysOf init ∨ a ∈ keysOf l := by
  intro l
  induction l with
  | nil => intro init a h; exact Or.inl h
  | cons p tl ih =>
    intro init a h
    rw [reinsertAll, List.foldl_cons] at h
    rcases ih (omInsert init p.1 p.2) a h with h' | h'
    · rcases (mem_keysOf_omInsert init p.1 p.2 a).mp h' with h'' | h''
      · exact Or.inl h''
      · exact Or.inr (by simp [keysOf, h''])
    · exact Or.inr (List.mem_cons_of_mem _ h')

/-! ### Fresh endpoints carry load f32::MAX -/

/-- Through the upsert pass, an address that is fresh and named by the
update ends up mapped to an endpoint whose `load` is `f32::MAX`, and an
address already carrying `load = f32::MAX` keeps it. -/
theorem upsertDsts_load_f32Max (name : Path) (a : Addr) (w : ℚ) :
    ∀ (ds : List (Addr × ℚ)) (avail : List (Addr × Endpoint)),
      ((a ∉ keysOf avail ∧ (a, w) ∈ ds) ∨
        (∃ ep, omGet avail a = some ep ∧ ep.load = f32Max)) →
      ∃ ep, omGet (upsertDsts name ds avail) a = some ep ∧ ep.load = f32Max := by
  intro ds
  induction ds with
  | nil =>
    intro avail h
    rcases h with ⟨_, hmem⟩ | hP
    · simp at hmem
    · simpa [upsertDsts] using hP
  | cons dw tl ih =>
    intro avail h
    obtain ⟨addr, w'⟩ := dw
    rw [upsertDsts]
    apply ih
    set avail1 := if omContains avail addr then avail
      else avail ++ [(addr, Endpoint.new name addr w')] with havail1
    rcases h with ⟨hnot, hmem⟩ | ⟨ep, hget, hload⟩
    · by_cases haddr : addr = a
      · subst haddr
        right
        have hc : omContains avail addr = false := by
          by_contra hc'
          exact hnot ((omContains_iff avail addr).mp
            (by simpa [Bool.not_eq_false] using hc'))
        have h1 : omGet avail1 addr = some (Endpoint.new name addr w') := by
          rw [havail1, if_neg (by simp [hc])]
          rw [omGet_append_of_not_mem avail _ addr hnot]
          exact omGet_singleton_self addr (Endpoint.new name addr w')
        have h2 : (omGet (avail1.map
            (fun p => if p.1 == addr then (p.1, { p.2 with weight := w' }) else p))
              addr).map Endpoint.load = some f32Max := by
          rw [omGet_weightMap addr w' avail1 addr, h1]
          rfl
        obtain ⟨ep, hep, hepl⟩ := Option.map_eq_some'.mp h2
        exact ⟨ep, hep, hepl⟩
      · left
        constructor
        · intro hmem2
          have h1 : a ∈ keysOf avail1 := by
            rwa [keysOf_weightMap avail1 addr w'] at hmem2
          apply hnot
          rw [havail1] at h1
          by_cases hc : omContains avail addr
          · rwa [if_pos hc] at h1
          · rw [if_neg hc] at h1
            simp only [keysOf, List.map_append, List.mem_append] at h1
            rcases h1 with h1 | h1
            · exact h1
            · simp at h1
              exact absurd h1.symm haddr
        · rcases List.mem_cons.mp hmem with hmem1 | hmem1
          · exact absurd (congrArg Prod.fst hmem1).symm haddr
          · exact hmem1
    · right
      have h1 : omGet avail1 a = some ep := by
        rw [havail1]
        by_cases hc : omContains avail addr
        · rwa [if_pos hc]
        · rw [if_neg hc]
          exact omGet_append_of_some avail _ a ep hget
      have h2 : (omGet (avail1.map
          (fun p => if p.1 == addr then (p.1, { p.2 with weight := w' }) else p))
            a).map Endpoint.load = some f32Max := by
        rw [omGet_weightMap addr w' avail1 a, h1]
        simpa using hload
      obtain ⟨ep', hep', hepl'⟩ := Option.map_eq_some'.mp h2
      exact ⟨ep', hep', hepl'⟩

/-- C9 counterexample: a fresh endpoint inserted by `update_resolved` has
`load = ::std::f32::MAX` — the largest finite `f32` — not `+∞`
(`f32::INFINITY`): inserting address `3` into an empty manager yields an
endpoint whose load is the finite value `f32Max`. -/
theorem C9_counterexample_load_not_infinity :
    omGet ((Manager.new 0 1).update_resolved
        (.ok [{ addr := 3, weight := 2 }])).available 3 =
      some (Endpoint.new 0 3 2) ∧
    (Endpoint.new 0 3 2).load = f32Max ∧ f32Max ≠ F32.inf :=
  ⟨rfl, rfl, fun h => F32.noConfusion h⟩

/-- C9 (amended): every endpoint freshly inserted by `update_resolved` —
one whose address was in neither `available` nor `retired` — has its
`load` initialized to `::std::f32::MAX`, which compares strictly greater
than any load strictly below `f32::MAX` (in particular any measured
load). -/
theorem C9_fresh_endpoint_load_f32Max (m : Manager) (resolved : List DstAddr)
    (a : Addr) (w : ℚ)
    (ha : a ∉ keysOf m.available) (hr : a ∉ keysOf m.retired)
    (hd : (a, w) ∈ buildDsts resolved) :
    (∃ ep, omGet (m.update_resolved (.ok resolved)).available a = some ep ∧
      ep.load = f32Max) ∧
    (∀ q : ℚ, q < f32MaxQ → F32.le f32Max (.fin q) = false) := by
  constructor
  · simp only [Manager.update_resolved]
    apply upsertDsts_load_f32Max m.dst_name a w
    left
    refine ⟨?_, hd⟩
    intro hmem
    rcases mem_keysOf_reinsertAll _ [] a hmem with h0 | h0
    · simp [keysOf] at h0
    · have h1 := availableSweep_temp_mem _ _ _ a h0
      rcases retiredSweep_avail_mem _ _ _ a h1 with h2 | h2
      · exact ha h2
      · exact hr h2
  · intro q hq
    simp only [F32.le, f32Max, decide_eq_false_iff_not]
    exact not_le.mpr hq

/-- Concrete instantiation of C9: address `3` is fresh for the empty
manager, and after the update it carries `load = f32::MAX`. -/
theorem C9_witness :
    ((3 : Addr) ∉ keysOf (Manager.new 0 1).available ∧
      (3 : Addr) ∉ keysOf (Manager.new 0 1).retired ∧
      ((3 : Addr), (2 : ℚ)) ∈ buildDsts [{ addr := 3, weight := 2 }]) ∧
    ((∃ ep, omGet ((Manager.new 0 1).update_resolved
        (.ok [{ addr := 3, weight := 2 }])).available 3 = some ep ∧
      ep.load = f32Max) ∧
    (∀ q : ℚ, q < f32MaxQ → F32.le f32Max (.fin q) = false)) :=
  ⟨⟨by simp [Manager.new, keysOf], by simp [Manager.new, keysOf],
     by simp [buildDsts, omInsert, omContains]⟩,
   C9_fresh_endpoint_load_f32Max (Manager.new 0 1) [{ addr := 3, weight := 2 }] 3 2
     (by simp [Manager.new, keysOf]) (by simp [Manager.new, keysOf])
     (by simp [buildDsts, omInsert, omContains])⟩

/-! ### Disjointness of available and retired -/


/-- Keys present after the upsert pass come from the map it started from
or from the update itself. -/
theorem upsertDsts_keys (name : Path) :
    ∀ (ds : List (Addr × ℚ)) (avail : List (Addr × Endpoint)) (a : Addr),
      a ∈ keysOf (upsertDsts name ds avail) →
      a ∈ keysOf avail ∨ a ∈ keysOf ds := by
  intro ds
  induction ds with
  | nil => intro avail a h; exact Or.inl h
  | cons dw tl ih =>
    intro avail a h
    obtain ⟨addr, w'⟩ := dw
    simp only [upsertDsts] at h
    rcases ih _ a h with h' | h'
    · rw [keysOf_weightMap] at h'
      by_cases hc : omContains avail addr
      · rw [if_pos hc] at h'
        exact Or.inl h'
      · rw [if_neg hc] at h'
        simp only [keysOf, List.map_append, List.mem_append] at h'
        rcases h' with h'' | h''
        · exact Or.inl h''
        · simp only [List.map_cons, List.map_nil, List.mem_singleton] at h''
          exact Or.inr (by simp [keysOf, h''])
    · exact Or.inr (List.mem_cons_of_mem _ h')

/-- An `Ok` resolver update always leaves the two tables key-disjoint:
every available key is named by the update, every retired key is not. -/
theorem update_resolved_ok_disjoint (m : Manager) (resolved : List DstAddr) :
    DisjointKeys (m.update_resolved (.ok resolved)) := by
  intro a ha hr
  simp only [Manager.update_resolved] at ha hr
  have hcontains : omContains (buildDsts resolved) a = true := by
    rcases upsertDsts_keys m.dst_name _ _ a ha with h1 | h1
    · rcases mem_keysOf_reinsertAll _ [] a h1 with h2 | h2
      · simp [keysOf] at h2
      · exact availableSweep_temp_contains _ _ _ a h2
    · exact (omContains_iff _ a).mpr h1
  have hnot : omContains (buildDsts resolved) a = false := by
    refine availableSweep_retired_not_contains _ _ _ ?_ a hr
    intro b hb
    rcases mem_keysOf_reinsertAll _ [] b hb with h2 | h2
    · simp [keysOf] at h2
    · exact retiredSweep_temp_not_contains _ _ _ b h2
  rw [hcontains] at hnot
  exact Bool.noConfusion hnot

/-- The dial-advancing phase preserves the key list of the available
table. -/
theorem advancePhase_keys (pollD : Nat → PollResult Sock) (name : Path) :
    ∀ (avail : List (Addr × Endpoint)) (s : ConnectionPollSummary),
      keysOf (advancePhase pollD name avail s).1 = keysOf avail := by
  intro avail
  induction avail with
  | nil => intro s; rfl
  | cons p tl ih =>
    intro s
    obtain ⟨addr, ep⟩ := p
    simp only [advancePhase, keysOf, List.map_cons, List.cons.injEq, true_and]
    simpa [keysOf] using ih _

/-- One top-up pass preserves the key list of the available table. -/
theorem topUpPass_keys (c : Nat → Addr → PollResult Sock) (minConns : Nat)
    (name : Path) :
    ∀ (avail : List (Addr × Endpoint)) (k : Nat) (s : ConnectionPollSummary),
      keysOf (topUpPass c minConns name k avail s).1 = keysOf avail := by
  intro avail
  induction avail with
  | nil => intro k s; rfl
  | cons p tl ih =>
    intro k s
    obtain ⟨addr, ep⟩ := p
    rw [topUpPass]
    cases c k addr <;>
      (simp only []
       split <;> simp only [keysOf, List.map_cons, List.cons.injEq, true_and] <;>
         simpa [keysOf] using ih _ _)

/-- The whole top-up loop preserves the key list of the available table. -/
theorem topUpGo_keys (c : Nat → Addr → PollResult Sock) (minConns : Nat)
    (name : Path) :
    ∀ (fuel k : Nat) (avail : List (Addr × Endpoint))
      (s : ConnectionPollSummary),
      keysOf (topUpGo c minConns name fuel k avail s).1 = keysOf avail := by
  intro fuel
  induction fuel with
  | zero => intro k avail s; rfl
  | succ n ih =>
    intro k avail s
    rw [topUpGo]
    by_cases hcond : topUpCond avail s minConns
    · rw [if_pos hcond]
      rw [ih, topUpPass_keys]
    · rw [if_neg hcond]

/-- `poll_connecting` preserves the available key list and never touches
the retired table. -/
theorem poll_connecting_keys (m : Manager) (pollD : Nat → PollResult Sock)
    (c : Nat → Addr → PollResult Sock) (fuel : Nat) :
    keysOf (m.poll_connecting pollD c fuel).1.available = keysOf m.available ∧
    (m.poll_connecting pollD c fuel).1.retired = m.retired := by
  constructor
  · show keysOf (topUpGo c m.minimum_connections m.dst_name fuel 0
      (advancePhase pollD m.dst_name m.available {}).1
      (advancePhase pollD m.dst_name m.available {}).2).1 = keysOf m.available
    rw [topUpGo_keys, advancePhase_keys]
  · rfl

/-- A completed drain loop changes neither the available key list nor the
retired table. -/
theorem dispatchLoop_keys (tape : Nat → Nat × Nat) :
    ∀ (ds : List Dispatchee) (step : Nat) (m m' : Manager),
      dispatchLoop tape step m ds = some m' →
      keysOf m'.available = keysOf m.available ∧ m'.retired = m.retired := by
  intro ds
  induction ds with
  | nil =>
    intro step m m' h
    simp only [dispatchLoop, Option.some.injEq] at h
    subst h
    exact ⟨rfl, rfl⟩
  | cons d tl ih =>
    intro step m m' h
    rw [dispatchLoop] at h
    cases hsel : m.select_endpoint (tape step).1 (tape step).2 with
    | none =>
      rw [hsel] at h
      exact absurd h (by simp)
    | some addr =>
      rw [hsel] at h
      obtain ⟨h1, h2⟩ := ih (step + 1) _ m' h
      exact ⟨h1.trans (keysOf_omModify m.available addr (fun ep => ep.dispatch d)),
        h2⟩

/-- Each manager operation preserves the key-disjointness of the two
tables. -/
theorem applyOp_disjoint (m : Manager) (op : MgrOp) (h : DisjointKeys m) :
    DisjointKeys (applyOp m op) := by
  cases op with
  | update resolved =>
    cases resolved with
    | error e => exact h
    | ok resolved => exact update_resolved_ok_disjoint m resolved
  | dispatchIntake ds tape =>
    show DisjointKeys ((m.dispatch ds tape).getD m)
    rw [Manager.dispatch]
    by_cases he : m.available.isEmpty
    · rw [if_pos he]
      exact h
    · rw [if_neg he]
      cases hd : dispatchLoop tape 0 m ds with
      | none => exact h
      | some m' =>
        obtain ⟨h1, h2⟩ := dispatchLoop_keys tape ds 0 m m' hd
        intro a ha
        rw [Option.getD_some] at ha ⊢
        rw [h1] at ha
        rw [h2]
        exact h a ha
  | poll pollD c fuel =>
    intro a ha
    have hk := poll_connecting_keys m pollD c fuel
    have ha' : a ∈ keysOf (m.poll_connecting pollD c fuel).1.available := ha
    rw [hk.1] at ha'
    show a ∉ keysOf (m.poll_connecting pollD c fuel).1.retired
    rw [hk.2]
    exact h a ha'

/-- Disjointness is an inductive invariant of arbitrary operation
sequences. -/
theorem runOps_disjoint (ops : List MgrOp) :
    ∀ (m : Manager), DisjointKeys m → DisjointKeys (runOps m ops) := by
  induction ops with
  | nil => intro m h; exact h
  | cons op tl ih =>
    intro m h
    exact ih _ (applyOp_disjoint m op h)

/-- C5: starting from a fresh manager, after any sequence of
`update_resolved`, `dispatch` and `poll_connecting` operations, the key
sets of `available` and `retired` are disjoint: no peer address is in
both. -/
theorem C5_available_retired_disjoint (dst minConns : Nat) (ops : List MgrOp)
    (a : Addr)
    (hmem : a ∈ keysOf (runOps (Manager.new dst minConns) ops).available) :
    a ∉ keysOf (runOps (Manager.new dst minConns) ops).retired :=
  runOps_disjoint ops (Manager.new dst minConns)
    (fun b hb => by simp [Manager.new, keysOf] at hb) a hmem

/-- Concrete instantiation of C5: after one resolver update inserting
address `3`, that address is available and not retired. -/
theorem C5_witness :
    (3 : Addr) ∈ keysOf (runOps (Manager.new 0 1)
        [MgrOp.update (.ok [{ addr := 3, weight := 2 }])]).available ∧
    (3 : Addr) ∉ keysOf (runOps (Manager.new 0 1)
        [MgrOp.update (.ok [{ addr := 3, weight := 2 }])]).retired :=
  ⟨by decide,
    C5_available_retired_disjoint 0 1
      [MgrOp.update (.ok [{ addr := 3, weight := 2 }])] 3 (by decide)⟩

/-! ### dispatch never panics -/

/-- The drain loop of `Manager::dispatch` never hits the `unwrap` panic:
with a non-empty available set and in-range random draws, every iteration
selects an endpoint, and the hand-off leaves the key structure of the
available set intact. -/
theorem dispatchLoop_ne_none (tape : Nat → Nat × Nat) :
    ∀ (ds : List Dispatchee) (step : Nat) (m : Manager),
      m.available ≠ [] →
      (∀ k, 3 ≤ m.available.length →
        (tape k).1 < m.available.length ∧ (tape k).2 < m.available.length) →
      dispatchLoop tape step m ds ≠ none := by
  intro ds
  induction ds with
  | nil =>
    intro step m hne ht
    simp [dispatchLoop]
  | cons d tl ih =>
    intro step m hne ht
    obtain ⟨a, ha⟩ :=
      select_endpoint_isSome m (tape step).1 (tape step).2 hne (ht step)
    rw [dispatchLoop, ha]
    have hlen : (omModify m.available a (fun ep => ep.dispatch d)).length =
        m.available.length := length_omModify _ _ _
    apply ih
    · intro hmod
      apply hne
      have hmod' : omModify m.available a (fun ep => ep.dispatch d) = [] := hmod
      apply List.length_eq_zero.mp
      rw [← hlen, hmod']
      rfl
    · intro k
      show 3 ≤ (omModify m.available a fun ep => ep.dispatch d).length → _
      rw [hlen]
      exact ht k

/-- C10: the `unwrap` of `select_endpoint()` inside `Manager::dispatch`
never panics: the available set is checked non-empty once at entry, no
operation in the drain loop adds or removes endpoints, and the RNG only
produces in-range indices, so `select_endpoint` returns an endpoint on
every iteration. -/
theorem C10_dispatch_unwrap_never_panics (m : Manager) (ds : List Dispatchee)
    (tape : Nat → Nat × Nat)
    (ht : ∀ k, 3 ≤ m.available.length →
      (tape k).1 < m.available.length ∧ (tape k).2 < m.available.length) :
    m.dispatch ds tape ≠ none := by
  rw [Manager.dispatch]
  by_cases he : m.available.isEmpty
  · simp [he]
  · rw [if_neg he]
    apply dispatchLoop_ne_none tape ds 0 m _ ht
    intro hnil
    exact he (by simp [hnil])


/-- Concrete instantiation of C10: dispatching one request against a
one-endpoint table does not panic. -/
theorem C10_witness :
    (∀ k : Nat, 3 ≤ c10mgr.available.length →
      ((fun _ => ((0 : Nat), (0 : Nat))) k).1 < c10mgr.available.length ∧
      ((fun _ => ((0 : Nat), (0 : Nat))) k).2 < c10mgr.available.length) ∧
    c10mgr.dispatch [{ id := 0, accepts := true }] (fun _ => (0, 0)) ≠ none :=
  ⟨fun _ h => absurd h (by decide),
    C10_dispatch_unwrap_never_panics c10mgr [{ id := 0, accepts := true }]
      (fun _ => (0, 0)) (fun _ h => absurd h (by decide))⟩

end LbManager
